import Mathlib

/-!
Verification of the Lamport distributed-lock implementation (`lamport-go`).

The Go source is embedded shallowly:
  * `Message`, the message-kind constants and `MessageHeap.Less` come from
    the message/heap file (`MessageHeap` over `[]Message`);
  * Go's `container/heap` operations (`up`, `down`, `heap.Push`, `heap.Pop`)
    are embedded verbatim over `List Message`, since the repository relies
    on their exact behaviour;
  * `LamportLockState` and its operations (`initState`, `sendRequestMsg`,
    `sendReleaseMsg`, `sendAckMsg`, `processMessage`, `allProcessesSeen`,
    `haveLock`) come from the lock file.  Channel sends are modelled as
    explicit outputs (the message sent plus the broadcast target set);
    `log.Fatal` (a process abort) is modelled by returning `none`.
Go `int` fields are modelled as `Int` (no claim depends on 64-bit overflow);
slice indices are `Nat`.
-/

namespace Lamport

/-- Embeds the Go struct `Message` with fields `Type`, `Proc`, `Time`
(all `int`).  The field `Type` is renamed `type` (`Type` is reserved in
Lean); `Proc` and `Time` are lowercased. -/
structure Message where
  type : Nat
  proc : Nat
  time : Int
  deriving DecidableEq, Repr

instance : Inhabited Message := ⟨⟨0, 0, 0⟩⟩

/-- `MessageRequest = iota` (0). -/
def MessageRequest : Nat := 0
/-- `MessageRelease = iota` (1). -/
def MessageRelease : Nat := 1
/-- `MessageAck = iota` (2). -/
def MessageAck : Nat := 2

/-- Embeds `MessageHeap.Less(i, j)`, applied to the two elements read:
`if mh[i].Time < mh[j].Time { return true }; return mh[i].Proc < mh[j].Proc`. -/
def less (a b : Message) : Bool :=
  if a.time < b.time then true
  else decide (a.proc < b.proc)

/-- The comparison the spec describes: strict lexicographic order on
(logicalTime, originPeer). -/
def lessSpec (a b : Message) : Bool :=
  decide (a.time < b.time ∨ (a.time = b.time ∧ a.proc < b.proc))

/-- Embeds `MessageHeap.Swap(i, j)`: `mh[i], mh[j] = mh[j], mh[i]`
(both reads happen before the writes). -/
def hswap (l : List Message) (i j : Nat) : List Message :=
  (l.set i (l.getD j default)).set j (l.getD i default)

/-- Embeds `container/heap`'s `up(h, j)`.  In Go, for `j = 0` the parent
index `(j-1)/2` truncates to `0`, so `i == j` and the loop exits; the Go
local `i` is written out as `(j - 1) / 2`. -/
def up (l : List Message) (j : Nat) : List Message :=
  if j = 0 then l
  else if less (l.getD j default) (l.getD ((j - 1) / 2) default) then
    up (hswap l ((j - 1) / 2) j) ((j - 1) / 2)
  else l
termination_by j
decreasing_by
  simp_wf
  omega

/-- The child index chosen inside `down`'s loop: the left child `2i+1`, or
the right child `2i+2` when it exists and compares `Less`. -/
def downChild (l : List Message) (i n : Nat) : Nat :=
  if 2 * i + 2 < n ∧ less (l.getD (2 * i + 2) default) (l.getD (2 * i + 1) default) then
    2 * i + 2
  else 2 * i + 1

/-- Embeds `container/heap`'s `down(h, i0, n)` loop body, one iteration per
recursive call (the returned `i > i0` flag is unused by all call sites). -/
def down (l : List Message) (i n : Nat) : List Message :=
  if 2 * i + 1 ≥ n then l
  else if less (l.getD (downChild l i n) default) (l.getD i default) then
    down (hswap l i (downChild l i n)) (downChild l i n) n
  else l
termination_by n - i
decreasing_by
  simp_wf
  simp only [downChild]
  split <;> omega

/-- Embeds `heap.Push(h, x)`: the interface `Push` appends, then
`up(h, h.Len()-1)`. -/
def heapPush (l : List Message) (m : Message) : List Message :=
  up (l ++ [m]) l.length

/-- Embeds `heap.Pop(h)`: `n := Len()-1; Swap(0, n); down(h, 0, n)`, then the
interface `Pop` removes and returns the final slice element.  Go panics on an
empty heap; no call site in the repository pops an empty heap, and the `[]`
case here is a placeholder default. -/
def heapPop (l : List Message) : Message × List Message :=
  match l with
  | [] => (default, [])
  | _ :: _ =>
    let n := l.length - 1
    let l1 := down (hswap l 0 n) 0 n
    (l1.getD n default, l1.take n)

/-- Embeds the Go struct `LamportLockState` without its Go-specific fields:
the mutex is dropped (each operation models one locked region as a pure
state transformer), and the channel slice `chns` is represented by its
length `nprocs`, with channel sends returned as explicit outputs. -/
structure LamportLockState where
  time : Int
  proc : Nat
  seen : List Int
  nprocs : Nat
  reqs : List Message
  deriving DecidableEq, Repr

/-- Embeds `initState(p, chns)`: `time: 1`, zeroed `seen` of length
`len(chns)`, empty request heap (`heap.Init` on an empty heap is a no-op). -/
def initState (p : Nat) (n : Nat) : LamportLockState :=
  { time := 1, proc := p, seen := List.replicate n 0, nprocs := n, reqs := [] }

/-- The set of channel indices a broadcast loop sends to:
`for p, chn := range state.chns { if p != state.proc { chn <- m } }`. -/
def broadcastTargets (s : LamportLockState) : List Nat :=
  (List.range s.nprocs).filter (fun p => p ≠ s.proc)

/-- Embeds `sendRequestMsg`: advance the clock, build the Request carrying
the new clock, send it to every other proc (the broadcast is returned as
message plus target list), and `heap.Push` it locally. -/
def sendRequestMsg (s : LamportLockState) : LamportLockState × Message × List Nat :=
  ({ s with time := s.time + 1,
            reqs := heapPush s.reqs ⟨MessageRequest, s.proc, s.time + 1⟩ },
   ⟨MessageRequest, s.proc, s.time + 1⟩, broadcastTargets s)

/-- Embeds `sendAckMsg(target)`: advance the clock and send an Ack carrying
the new clock to `chns[target]`. -/
def sendAckMsg (s : LamportLockState) (target : Nat) :
    LamportLockState × Message × Nat :=
  ({ s with time := s.time + 1 }, ⟨MessageAck, s.proc, s.time + 1⟩, target)

/-- Embeds `allProcessesSeen(time)`: false iff some proc other than self has
`seen[p] < time`. -/
def allProcessesSeen (s : LamportLockState) (t : Int) : Bool :=
  (List.range s.seen.length).all fun p =>
    if p ≠ s.proc then !decide (s.seen.getD p 0 < t) else true

/-- Embeds `haveLock()`: peek the head of the heap slice; true only when it
is self's own request and `allProcessesSeen` holds at its time. -/
def haveLock (s : LamportLockState) : Bool :=
  if s.reqs.length > 0 then
    if (s.reqs.getD 0 default).proc = s.proc then
      allProcessesSeen s (s.reqs.getD 0 default).time
    else false
  else false

/-- Embeds `sendReleaseMsg`: `log.Fatal` when `haveLock()` is false —
modelled as `none`, before any state is touched.  Otherwise advance the
clock, broadcast the Release carrying the new clock, and `heap.Pop` the
local heap. -/
def sendReleaseMsg (s : LamportLockState) :
    Option (LamportLockState × Message × List Nat) :=
  if haveLock s then
    some ({ s with time := s.time + 1, reqs := (heapPop s.reqs).2 },
          ⟨MessageRelease, s.proc, s.time + 1⟩, broadcastTargets s)
  else none

/-- Embeds the Release-handler loop of `processMessage`: pop every entry,
appending those whose `Proc` differs from `p` to `kept`. -/
def drain (h : List Message) (p : Nat) (kept : List Message) : List Message :=
  if hh : h.length > 0 then
    drain (heapPop h).2 p
      (if (heapPop h).1.proc ≠ p then kept ++ [(heapPop h).1] else kept)
  else kept
termination_by h.length
decreasing_by
  simp_wf
  cases h with
  | nil => simp at hh
  | cons x xs =>
    simp only [heapPop, List.length_take, List.length_cons]
    omega

/-- The full Release handling: drain the heap keeping entries of other
procs, then `heap.Push` each kept entry back onto the emptied heap. -/
def processRelease (h : List Message) (p : Nat) : List Message :=
  (drain h p []).foldl heapPush []

/-- Embeds `processMessage(m)`: record `seen[m.Proc] = m.Time`, merge the
clock with `max`, then push-and-Ack for a Request, purge for a Release,
nothing more for an Ack.  The optional output is the Ack reply and its
channel target. -/
def processMessage (s : LamportLockState) (m : Message) :
    LamportLockState × Option (Message × Nat) :=
  let s1 := { s with seen := s.seen.set m.proc m.time,
                     time := if m.time > s.time then m.time else s.time }
  if m.type = MessageRequest then
    let s2 := { s1 with reqs := heapPush s1.reqs m }
    ((sendAckMsg s2 m.proc).1, some ((sendAckMsg s2 m.proc).2.1, m.proc))
  else if m.type = MessageRelease then
    ({ s1 with reqs := processRelease s1.reqs m.proc }, none)
  else (s1, none)

/-- Folds `processMessage` over a list of inbound messages (the servicing
loop run on a given delivery sequence), keeping only the state. -/
def runMsgs (s : LamportLockState) (ms : List Message) : LamportLockState :=
  ms.foldl (fun s m => (processMessage s m).1) s

/-- Reachable executions of one peer under the protocol discipline: the peer
issues no second Request before releasing its first, every remote Release is
preceded by the matching remote Request, successive Requests of a remote
peer are separated by its Release (FIFO delivery per sender), and the
peer's own Release happens only when `sendReleaseMsg` does not abort.
`ph p` records whether an un-released Request of peer `p` has been
incorporated into the local queue. -/
inductive Run (self n : Nat) : LamportLockState → (Nat → Bool) → Prop
  | init : Run self n (initState self n) (fun _ => false)
  | sendReq {s ph} : Run self n s ph → ph self = false →
      Run self n (sendRequestMsg s).1 (Function.update ph self true)
  | sendRel {s ph s' out} : Run self n s ph →
      sendReleaseMsg s = some (s', out) →
      Run self n s' (Function.update ph self false)
  | recvReq {s ph} (p : Nat) (t : Int) : Run self n s ph → p ≠ self →
      ph p = false →
      Run self n (processMessage s ⟨MessageRequest, p, t⟩).1 (Function.update ph p true)
  | recvRel {s ph} (p : Nat) (t : Int) : Run self n s ph → p ≠ self →
      ph p = true →
      Run self n (processMessage s ⟨MessageRelease, p, t⟩).1 (Function.update ph p false)
  | recvAck {s ph} (p : Nat) (t : Int) : Run self n s ph → p ≠ self →
      Run self n (processMessage s ⟨MessageAck, p, t⟩).1 ph

/-! ### Length preservation of the heap operations -/

@[simp] theorem length_hswap (l : List Message) (i j : Nat) :
    (hswap l i j).length = l.length := by
  simp [hswap]

theorem length_up (l : List Message) (j : Nat) : (up l j).length = l.length := by
  induction l, j using up.induct with
  | case1 l => rw [up, if_pos rfl]
  | case2 l j hj hlt ih =>
    rw [up, if_neg hj, if_pos hlt, ih, length_hswap]
  | case3 l j hj hlt =>
    rw [up, if_neg hj, if_neg hlt]

theorem length_down (l : List Message) (i n : Nat) :
    (down l i n).length = l.length := by
  induction l, i, n using down.induct with
  | case1 l i n h => rw [down, if_pos h]
  | case2 l i n h hlt ih =>
    rw [down, if_neg h, if_pos hlt, ih, length_hswap]
  | case3 l i n h hlt =>
    rw [down, if_neg h, if_neg hlt]

@[simp] theorem length_heapPush (l : List Message) (m : Message) :
    (heapPush l m).length = l.length + 1 := by
  simp [heapPush, length_up]

theorem length_heapPop (l : List Message) (h : l ≠ []) :
    (heapPop l).2.length = l.length - 1 := by
  match l with
  | [] => exact absurd rfl h
  | x :: xs =>
    simp only [heapPop, List.length_take, length_down, length_hswap]
    omega

/-! ### Multiset content of the heap operations -/

theorem getD_eq_of_lt {α : Type} (l : List α) (d : α) {i : Nat} (h : i < l.length) :
    l.getD i d = l[i] := by
  simp [List.getElem?_eq_getElem h]

theorem set_cons_ms {α : Type} (l : List α) (i : Nat) (a d : α) (h : i < l.length) :
    (l.getD i d) ::ₘ ((l.set i a : List α) : Multiset α) = a ::ₘ (l : Multiset α) := by
  rw [getD_eq_of_lt l d h, List.set_eq_take_cons_drop a h]
  conv_rhs => rw [← List.take_append_drop i l, List.drop_eq_getElem_cons h]
  simp only [← Multiset.coe_add, ← Multiset.cons_coe, Multiset.add_cons]
  exact Multiset.cons_swap _ _ _

theorem hswap_ms (l : List Message) {i j : Nat} (hi : i < l.length) (hj : j < l.length) :
    ((hswap l i j : List Message) : Multiset Message) = (l : Multiset Message) := by
  have h1 := set_cons_ms l i (l.getD j default) default hi
  have hj' : j < (l.set i (l.getD j default)).length := by simpa using hj
  have h2 := set_cons_ms (l.set i (l.getD j default)) j (l.getD i default) default hj'
  have hgd : (l.set i (l.getD j default)).getD j default = l.getD j default := by
    by_cases hij : i = j
    · subst hij
      rw [getD_eq_of_lt _ _ hj']
      simp
    · simp [List.getElem?_set_ne hij]
  rw [hgd] at h2
  have h3 : (l.getD j default) ::ₘ ((hswap l i j : List Message) : Multiset Message)
      = (l.getD j default) ::ₘ (l : Multiset Message) := by
    unfold hswap
    rw [h2, h1]
  exact (Multiset.cons_inj_right _).1 h3

theorem up_ms (l : List Message) (j : Nat) (hj : j < l.length) :
    ((up l j : List Message) : Multiset Message) = (l : Multiset Message) := by
  induction l, j using up.induct with
  | case1 l => rw [up, if_pos rfl]
  | case2 l j hne hlt ih =>
    rw [up, if_neg hne, if_pos hlt]
    have hi : (j - 1) / 2 < l.length := by omega
    rw [ih (by simpa using hi), hswap_ms l hi hj]
  | case3 l j hne hlt =>
    rw [up, if_neg hne, if_neg hlt]

theorem downChild_lt (l : List Message) {i n : Nat} (h : ¬ 2 * i + 1 ≥ n) :
    downChild l i n < n ∧ i < downChild l i n := by
  unfold downChild
  split <;> omega

theorem down_ms (l : List Message) (i n : Nat) (hn : n ≤ l.length) :
    ((down l i n : List Message) : Multiset Message) = (l : Multiset Message) := by
  induction l, i, n using down.induct with
  | case1 l i n h => rw [down, if_pos h]
  | case2 l i n h hlt ih =>
    rw [down, if_neg h, if_pos hlt]
    obtain ⟨hc1, hc2⟩ := downChild_lt l h
    have hi : i < l.length := by omega
    have hj : downChild l i n < l.length := by omega
    rw [ih (by simpa using hn), hswap_ms l hi hj]
  | case3 l i n h hlt =>
    rw [down, if_neg h, if_neg hlt]

theorem hswap_drop (l : List Message) {i j n : Nat} (hi : i < n) (hj : j < n) :
    (hswap l i j).drop n = l.drop n := by
  unfold hswap
  rw [List.drop_set, if_pos (by omega), List.drop_set, if_pos (by omega)]

theorem down_drop (l : List Message) (i n : Nat) :
    (down l i n).drop n = l.drop n := by
  induction l, i, n using down.induct with
  | case1 l i n h => rw [down, if_pos h]
  | case2 l i n h hlt ih =>
    rw [down, if_neg h, if_pos hlt]
    obtain ⟨hc1, hc2⟩ := downChild_lt l h
    rw [ih, hswap_drop l (by omega) hc1]
  | case3 l i n h hlt =>
    rw [down, if_neg h, if_neg hlt]

theorem heapPush_ms (l : List Message) (m : Message) :
    ((heapPush l m : List Message) : Multiset Message) = m ::ₘ (l : Multiset Message) := by
  unfold heapPush
  rw [up_ms _ _ (by simp), Multiset.cons_coe]
  exact Multiset.coe_eq_coe.2 (List.perm_append_singleton _ _)

theorem heapPop_eq (l : List Message) (h : l ≠ []) :
    heapPop l
      = ((down (hswap l 0 (l.length - 1)) 0 (l.length - 1)).getD (l.length - 1) default,
         (down (hswap l 0 (l.length - 1)) 0 (l.length - 1)).take (l.length - 1)) := by
  match l with
  | x :: xs => rfl

theorem heapPop_drop (l : List Message) (hl : 2 ≤ l.length) :
    (down (hswap l 0 (l.length - 1)) 0 (l.length - 1)).drop (l.length - 1)
      = [l.getD 0 default] := by
  have hn1 : 0 < l.length - 1 := by omega
  rw [down_drop]
  unfold hswap
  rw [List.drop_set, if_neg (lt_irrefl _), Nat.sub_self, List.drop_set, if_pos hn1]
  obtain ⟨z, hz⟩ : ∃ z, l.drop (l.length - 1) = [z] :=
    List.length_eq_one.1 (by simp; omega)
  rw [hz]
  rfl

theorem heapPop_spec (l : List Message) (h : l ≠ []) :
    (heapPop l).1 = l.getD 0 default ∧
    (heapPop l).1 ::ₘ ((heapPop l).2 : Multiset Message) = (l : Multiset Message) := by
  by_cases h2 : 2 ≤ l.length
  · have hn : l.length - 1 < l.length := by omega
    have hms : ((down (hswap l 0 (l.length - 1)) 0 (l.length - 1) : List Message) :
        Multiset Message) = (l : Multiset Message) := by
      rw [down_ms _ _ _ (by simp), hswap_ms l (by omega) hn]
    have hkey := heapPop_drop l h2
    have hlen : l.length - 1 < (down (hswap l 0 (l.length - 1)) 0 (l.length - 1)).length := by
      rw [length_down, length_hswap]
      exact hn
    have hfst : (heapPop l).1 = l.getD 0 default := by
      rw [heapPop_eq l h]
      dsimp only
      rw [List.drop_eq_getElem_cons hlen] at hkey
      injection hkey with h1 h2
      rw [getD_eq_of_lt _ _ hlen]
      exact h1
    refine ⟨hfst, ?_⟩
    rw [hfst, heapPop_eq l h]
    dsimp only
    have hsplit := List.take_append_drop (l.length - 1)
      (down (hswap l 0 (l.length - 1)) 0 (l.length - 1))
    have hsum : ((down (hswap l 0 (l.length - 1)) 0 (l.length - 1)).take (l.length - 1) :
          Multiset Message) + ([l.getD 0 default] : List Message) = (l : Multiset Message) := by
      rw [← hkey, Multiset.coe_add, hsplit]
      exact hms
    rw [← hsum, Multiset.coe_singleton, add_comm, Multiset.singleton_add]
  · obtain ⟨x, hx⟩ : ∃ x, l = [x] := by
      refine List.length_eq_one.1 ?_
      have := List.length_pos.2 h
      omega
    subst hx
    constructor
    · simp [heapPop, down, hswap]
    · simp [heapPop, down, hswap]

theorem drain_ms (h : List Message) (p : Nat) (kept : List Message) :
    ((drain h p kept : List Message) : Multiset Message)
      = (kept : Multiset Message)
        + Multiset.filter (fun m => m.proc ≠ p) (h : Multiset Message) := by
  induction h, p, kept using drain.induct with
  | case1 h p kept hh ih =>
    simp only [dite_eq_ite] at ih
    rw [drain, dif_pos hh, ih]
    have hne : h ≠ [] := by
      intro e
      rw [e] at hh
      simp at hh
    obtain ⟨-, hms⟩ := heapPop_spec h hne
    rw [← hms]
    by_cases hp : (heapPop h).1.proc ≠ p
    · rw [if_pos hp, @Multiset.filter_cons_of_pos Message (fun m => m.proc ≠ p) _ _ _ hp,
          ← Multiset.coe_add, Multiset.coe_singleton, ← Multiset.singleton_add, ← add_assoc]
    · rw [if_neg hp, @Multiset.filter_cons_of_neg Message (fun m => m.proc ≠ p) _ _ _ hp]
  | case2 h p kept hh =>
    rw [drain, dif_neg hh]
    have he : h = [] := by
      cases h with
      | nil => rfl
      | cons x xs => simp at hh
    rw [he]
    simp

theorem foldl_heapPush_ms (ms acc : List Message) :
    ((ms.foldl heapPush acc : List Message) : Multiset Message)
      = (acc : Multiset Message) + (ms : Multiset Message) := by
  induction ms generalizing acc with
  | nil => simp
  | cons m ms ih =>
    rw [List.foldl_cons, ih, heapPush_ms, Multiset.cons_add, ← Multiset.cons_coe,
        Multiset.add_cons]

theorem processRelease_ms (h : List Message) (p : Nat) :
    ((processRelease h p : List Message) : Multiset Message)
      = Multiset.filter (fun m => m.proc ≠ p) (h : Multiset Message) := by
  unfold processRelease
  rw [foldl_heapPush_ms, drain_ms]
  simp

/-! ### Field characterizations of processMessage -/

theorem ite_max (a b : Int) : (if b > a then b else a) = max a b := by
  rw [max_def]
  split <;> split <;> omega

theorem pm_seen (s : LamportLockState) (m : Message) :
    (processMessage s m).1.seen = s.seen.set m.proc m.time := by
  unfold processMessage sendAckMsg
  split_ifs <;> rfl

theorem pm_proc (s : LamportLockState) (m : Message) :
    (processMessage s m).1.proc = s.proc := by
  unfold processMessage sendAckMsg
  split_ifs <;> rfl

theorem pm_nprocs (s : LamportLockState) (m : Message) :
    (processMessage s m).1.nprocs = s.nprocs := by
  unfold processMessage sendAckMsg
  split_ifs <;> rfl

theorem pm_time_request (s : LamportLockState) (m : Message)
    (h : m.type = MessageRequest) :
    (processMessage s m).1.time = max s.time m.time + 1 := by
  unfold processMessage sendAckMsg
  rw [if_pos h]
  dsimp only
  rw [ite_max]

theorem pm_time_other (s : LamportLockState) (m : Message)
    (h : m.type ≠ MessageRequest) :
    (processMessage s m).1.time = max s.time m.time := by
  unfold processMessage sendAckMsg
  rw [if_neg h]
  split <;> exact ite_max s.time m.time

theorem pm_reqs_request (s : LamportLockState) (m : Message)
    (h : m.type = MessageRequest) :
    (processMessage s m).1.reqs = heapPush s.reqs m := by
  unfold processMessage sendAckMsg
  rw [if_pos h]

theorem pm_reqs_release (s : LamportLockState) (m : Message)
    (h : m.type = MessageRelease) :
    (processMessage s m).1.reqs = processRelease s.reqs m.proc := by
  unfold processMessage sendAckMsg
  rw [if_neg (by rw [h]; decide), if_pos h]

theorem pm_reqs_ack (s : LamportLockState) (m : Message)
    (h : m.type = MessageAck) :
    (processMessage s m).1.reqs = s.reqs := by
  unfold processMessage sendAckMsg
  rw [if_neg (by rw [h]; decide), if_neg (by rw [h]; decide)]

theorem pm_out_request (s : LamportLockState) (m : Message)
    (h : m.type = MessageRequest) :
    (processMessage s m).2 = some (⟨MessageAck, s.proc, max s.time m.time + 1⟩, m.proc) := by
  unfold processMessage sendAckMsg
  rw [if_pos h]
  dsimp only
  rw [ite_max]

theorem pm_out_other (s : LamportLockState) (m : Message)
    (h : m.type ≠ MessageRequest) :
    (processMessage s m).2 = none := by
  unfold processMessage sendAckMsg
  rw [if_neg h]
  split <;> rfl

/-! ### Claim theorems -/

/-- C1: the claim says the priority-queue comparison is the strict
lexicographic order on (logicalTime, originPeer), asymmetric, with
originPeer consulted only when the times are equal.  The code's `Less`
falls through to the `Proc` comparison whenever `Time_i < Time_j` fails,
even for `Time_i > Time_j`: at a = (time 5, proc 0), b = (time 3, proc 1)
it reports both a before b and b before a, while the lexicographic
comparison reports a before b as false. -/
theorem less_not_lexicographic_at_failing_input :
    less ⟨MessageRequest, 0, 5⟩ ⟨MessageRequest, 1, 3⟩ = true ∧
    less ⟨MessageRequest, 1, 3⟩ ⟨MessageRequest, 0, 5⟩ = true ∧
    lessSpec ⟨MessageRequest, 0, 5⟩ ⟨MessageRequest, 1, 3⟩ = false := by
  decide

/-- C2: the claim says pushing the Requests (time 5, proc 0),
(time 3, proc 1), (time 3, proc 2) in any order and popping three times
yields peer1, peer2, peer0.  Pushing in the order peer0, peer1, peer2,
the pops return peer1, peer0, peer2 instead. -/
theorem heap_pop_order_at_failing_input :
    (heapPop (heapPush (heapPush (heapPush []
        ⟨MessageRequest, 0, 5⟩) ⟨MessageRequest, 1, 3⟩) ⟨MessageRequest, 2, 3⟩)).1
      = ⟨MessageRequest, 1, 3⟩ ∧
    (heapPop (heapPop (heapPush (heapPush (heapPush []
        ⟨MessageRequest, 0, 5⟩) ⟨MessageRequest, 1, 3⟩) ⟨MessageRequest, 2, 3⟩)).2).1
      = ⟨MessageRequest, 0, 5⟩ ∧
    (heapPop (heapPop (heapPop (heapPush (heapPush (heapPush []
        ⟨MessageRequest, 0, 5⟩) ⟨MessageRequest, 1, 3⟩) ⟨MessageRequest, 2, 3⟩)).2).2).1
      = ⟨MessageRequest, 2, 3⟩ := by
  refine ⟨?_, ?_, ?_⟩ <;>
    simp [heapPush, heapPop, up, down, downChild, hswap, less, MessageRequest]

/-- C4: `processMessage` sets `seen[m.proc]` to `m.time` and merges the
clock with `max` without adding 1 on receipt; only for an inbound Request
is the clock incremented by exactly 1 more (when the Ack reply is built),
and that Ack carries the incremented clock value. -/
theorem processMessage_clock_and_seen (s : LamportLockState) (m : Message)
    (hp : m.proc < s.seen.length) :
    (processMessage s m).1.seen.getD m.proc 0 = m.time ∧
    (processMessage s m).1.seen = s.seen.set m.proc m.time ∧
    (m.type ≠ MessageRequest →
      (processMessage s m).1.time = max s.time m.time ∧
      (processMessage s m).2 = none) ∧
    (m.type = MessageRequest →
      (processMessage s m).1.time = max s.time m.time + 1 ∧
      (processMessage s m).2 = some (⟨MessageAck, s.proc, max s.time m.time + 1⟩, m.proc)) := by
  refine ⟨?_, pm_seen s m, fun h => ⟨pm_time_other s m h, pm_out_other s m h⟩,
    fun h => ⟨pm_time_request s m h, pm_out_request s m h⟩⟩
  rw [pm_seen s m, getD_eq_of_lt _ _ (by simpa using hp)]
  simp [hp]

/-- Witness for C4 at a concrete state and message. -/
theorem processMessage_clock_and_seen_witness :
    (processMessage (initState 0 2) ⟨MessageRequest, 1, 5⟩).1.seen.getD 1 0 = 5 :=
  (processMessage_clock_and_seen (initState 0 2) ⟨MessageRequest, 1, 5⟩ (by decide)).1

/-- C6: handling a Release message leaves, as a multiset, exactly the prior
pendingRequests entries whose originPeer differs from the sender; every
entry of the sender is removed and nothing else is added, removed or
altered. -/
theorem processMessage_release_frame (s : LamportLockState) (m : Message)
    (h : m.type = MessageRelease) :
    ((processMessage s m).1.reqs : Multiset Message)
      = Multiset.filter (fun r => r.proc ≠ m.proc) (s.reqs : Multiset Message) := by
  rw [pm_reqs_release s m h, processRelease_ms]

/-- Witness for C6: releasing peer 1 from a two-entry queue keeps exactly
peer 2's entry. -/
theorem processMessage_release_frame_witness :
    ((processMessage ⟨5, 0, [0, 3, 4], 3, [⟨MessageRequest, 1, 3⟩, ⟨MessageRequest, 2, 4⟩]⟩
        ⟨MessageRelease, 1, 5⟩).1.reqs : Multiset Message)
      = Multiset.filter (fun r => r.proc ≠ 1)
          (([⟨MessageRequest, 1, 3⟩, ⟨MessageRequest, 2, 4⟩] : List Message) : Multiset Message) :=
  processMessage_release_frame _ ⟨MessageRelease, 1, 5⟩ rfl

theorem allProcessesSeen_iff (s : LamportLockState) (t : Int) :
    allProcessesSeen s t = true
      ↔ ∀ p < s.seen.length, p ≠ s.proc → t ≤ s.seen.getD p 0 := by
  unfold allProcessesSeen
  rw [List.all_eq_true]
  constructor
  · intro h p hp hne
    have hx := h p (List.mem_range.2 hp)
    rw [if_pos hne] at hx
    simpa using hx
  · intro h p hp
    by_cases hne : p ≠ s.proc
    · rw [if_pos hne]
      simpa using h p (List.mem_range.1 hp) hne
    · rw [if_neg hne]

/-- C3: `haveLock` returns false when the queue is empty or the front entry
is another peer's; when the front entry is the calling peer's own request,
it returns true iff every other peer's seen time is at least the front
entry's logical time.  The embedding of `haveLock` is a pure function of
the state returning only a boolean, so it mutates no state field by
construction. -/
theorem haveLock_characterization (s : LamportLockState) :
    (s.reqs = [] → haveLock s = false) ∧
    (∀ m, s.reqs.head? = some m → m.proc ≠ s.proc → haveLock s = false) ∧
    (∀ m, s.reqs.head? = some m → m.proc = s.proc →
      (haveLock s = true ↔ ∀ p < s.seen.length, p ≠ s.proc → m.time ≤ s.seen.getD p 0)) := by
  refine ⟨fun h => by simp [haveLock, h], ?_, ?_⟩
  · intro m hm hne
    cases hr : s.reqs with
    | nil => rw [hr] at hm; simp at hm
    | cons a tl =>
      rw [hr] at hm
      simp only [List.head?_cons, Option.some.injEq] at hm
      subst hm
      simp [haveLock, hr, hne]
  · intro m hm hpr
    cases hr : s.reqs with
    | nil => rw [hr] at hm; simp at hm
    | cons a tl =>
      rw [hr] at hm
      simp only [List.head?_cons, Option.some.injEq] at hm
      subst hm
      rw [haveLock, if_pos (by simp [hr]), hr]
      simp only [List.getD_cons_zero, if_pos hpr]
      exact allProcessesSeen_iff s a.time

/-- Witness for C3: a peer whose own request is at the front and whose one
other peer has acknowledged it holds the lock. -/
theorem haveLock_characterization_witness :
    haveLock ⟨2, 0, [0, 2], 2, [⟨MessageRequest, 0, 2⟩]⟩ = true :=
  ((haveLock_characterization ⟨2, 0, [0, 2], 2, [⟨MessageRequest, 0, 2⟩]⟩).2.2
    ⟨MessageRequest, 0, 2⟩ rfl rfl).2 (by decide)

theorem haveLock_front (s : LamportLockState) (h : haveLock s = true) :
    s.reqs ≠ [] ∧ (s.reqs.getD 0 default).proc = s.proc := by
  unfold haveLock at h
  by_cases h1 : s.reqs.length > 0
  · rw [if_pos h1] at h
    by_cases h2 : (s.reqs.getD 0 default).proc = s.proc
    · refine ⟨?_, h2⟩
      intro e
      rw [e] at h1
      simp at h1
    · rw [if_neg h2] at h
      exact absurd h (by simp)
  · rw [if_neg h1] at h
    exact absurd h (by simp)

/-- C7: `Release` aborts (models `log.Fatal`, returning `none` with no state
mutated, nothing broadcast, the clock unchanged and the queue untouched)
whenever `haveLock` is false; when `haveLock` holds it broadcasts a Release
carrying the incremented clock to every other peer and pops the front of
`pendingRequests`. -/
theorem sendReleaseMsg_contract (s : LamportLockState) :
    (haveLock s = false → sendReleaseMsg s = none) ∧
    (haveLock s = true →
      ∃ s', sendReleaseMsg s
          = some (s', ⟨MessageRelease, s.proc, s.time + 1⟩, broadcastTargets s) ∧
        s'.time = s.time + 1 ∧
        s'.seen = s.seen ∧
        s'.proc = s.proc ∧
        s.reqs ≠ [] ∧
        (s.reqs.getD 0 default).proc = s.proc ∧
        (s.reqs.getD 0 default) ::ₘ (s'.reqs : Multiset Message) = (s.reqs : Multiset Message) ∧
        ∀ p, p ∈ broadcastTargets s ↔ (p < s.nprocs ∧ p ≠ s.proc)) := by
  constructor
  · intro h
    rw [sendReleaseMsg, if_neg (by simp [h])]
  · intro h
    obtain ⟨hne, hfr⟩ := haveLock_front s h
    obtain ⟨hfst, hms⟩ := heapPop_spec s.reqs hne
    refine ⟨{ s with time := s.time + 1, reqs := (heapPop s.reqs).2 },
      by rw [sendReleaseMsg, if_pos (by simp [h])], rfl, rfl, rfl, hne, hfr, ?_, ?_⟩
    · rw [← hfst]
      exact hms
    · intro p
      simp [broadcastTargets, List.mem_filter, List.mem_range]

/-- Witness for C7: on a freshly initialized state (no pending request) the
lock is not held and `Release` aborts. -/
theorem sendReleaseMsg_contract_witness :
    sendReleaseMsg (initState 0 2) = none :=
  (sendReleaseMsg_contract (initState 0 2)).1 (by decide)

/-- C8: the logical clock never decreases: sending a Request or an Ack,
a non-aborting Release, and processing any inbound message all leave the
clock at least its prior value, and after processing message m the clock
is at least m's logical time. -/
theorem clock_monotonic (s : LamportLockState) (m : Message) (t : Nat) :
    s.time ≤ (sendRequestMsg s).1.time ∧
    s.time ≤ (sendAckMsg s t).1.time ∧
    (∀ s' out, sendReleaseMsg s = some (s', out) → s.time ≤ s'.time) ∧
    s.time ≤ (processMessage s m).1.time ∧
    m.time ≤ (processMessage s m).1.time := by
  have h1 := le_max_left s.time m.time
  have h2 := le_max_right s.time m.time
  refine ⟨by unfold sendRequestMsg; dsimp only; omega,
          by unfold sendAckMsg; dsimp only; omega, ?_, ?_, ?_⟩
  · intro s' out heq
    by_cases hl : haveLock s
    · rw [sendReleaseMsg, if_pos hl] at heq
      simp only [Option.some.injEq, Prod.mk.injEq] at heq
      obtain ⟨he, -⟩ := heq
      rw [← he]
      dsimp only
      omega
    · rw [sendReleaseMsg, if_neg hl] at heq
      exact absurd heq (by simp)
  · by_cases h : m.type = MessageRequest
    · rw [pm_time_request s m h]
      omega
    · rw [pm_time_other s m h]
      omega
  · by_cases h : m.type = MessageRequest
    · rw [pm_time_request s m h]
      omega
    · rw [pm_time_other s m h]
      omega

/-- Witness for C8: a non-aborting Release from a lock-holding state leaves
the clock no smaller. -/
theorem clock_monotonic_witness :
    (⟨2, 0, [0, 2], 2, [⟨MessageRequest, 0, 2⟩]⟩ : LamportLockState).time
      ≤ (⟨2 + 1, 0, [0, 2], 2,
          (heapPop [⟨MessageRequest, 0, 2⟩]).2⟩ : LamportLockState).time :=
  (clock_monotonic ⟨2, 0, [0, 2], 2, [⟨MessageRequest, 0, 2⟩]⟩ ⟨MessageAck, 1, 1⟩ 1).2.2.1
    _ _ rfl

/-- C10 counterexample: after servicing one inbound Request (from peer 1 at
time 5) the peer's first-ever Request carries logical time 7, not 2; so
"the first Request a peer ever sends carries logicalTime exactly 2" fails
whenever messages are processed before the first Acquire. -/
theorem first_request_time_after_traffic :
    (sendRequestMsg (runMsgs (initState 0 2) [⟨MessageRequest, 1, 5⟩])).2.1.time = 7 ∧
    ¬ (sendRequestMsg (runMsgs (initState 0 2) [⟨MessageRequest, 1, 5⟩])).2.1.time = 2 := by
  decide

/-- C10 (amended): construction initializes the clock to 1 (not 0), the
seen-time vector to 0 for every peer, and an empty queue; a Request sent
from the freshly constructed state, before any inbound message is
processed, carries logical time exactly 2. -/
theorem initState_and_first_request (p n : Nat) :
    (initState p n).time = 1 ∧
    (∀ q, q < n → (initState p n).seen.getD q 0 = 0) ∧
    (initState p n).reqs = [] ∧
    (sendRequestMsg (initState p n)).2.1.time = 2 ∧
    (sendRequestMsg (initState p n)).1.time = 2 := by
  refine ⟨rfl, ?_, rfl, rfl, rfl⟩
  intro q hq
  simp [initState]

/-- Witness for C10 (amended) at peer 0 of 2. -/
theorem initState_and_first_request_witness :
    (initState 0 2).seen.getD 1 0 = 0 :=
  (initState_and_first_request 0 2).2.1 1 (by decide)

/-- C5 counterexample: messages from peer 1 arriving with logical times 5
then 3 leave `lastSeenTime[1] = 3`, not the highest observed time 5 — the
receive handler overwrites rather than maximizes. -/
theorem lastSeen_overwrite_at_counterexample :
    (runMsgs (initState 0 2)
        [⟨MessageRequest, 1, 5⟩, ⟨MessageRequest, 1, 3⟩]).seen.getD 1 0 = 3 ∧
    ¬ (runMsgs (initState 0 2)
        [⟨MessageRequest, 1, 5⟩, ⟨MessageRequest, 1, 3⟩]).seen.getD 1 0 = 5 := by
  decide

/-- C5 (amended): after processing any finite message sequence,
`lastSeenTime[p]` equals the logical time of the most recently received
message from p, or its initial value if none arrived; this coincides with
the highest observed time exactly when times from p arrive in
non-decreasing order (as FIFO delivery guarantees). -/
theorem lastSeen_equals_last_from_peer (s : LamportLockState) (ms : List Message)
    (p : Nat) (hp : p < s.seen.length) :
    (runMsgs s ms).seen.getD p 0
      = ((ms.filter (fun m => m.proc = p)).map Message.time).getLastD
          (s.seen.getD p 0) := by
  induction ms generalizing s with
  | nil => simp [runMsgs]
  | cons m rest ih =>
    have hstep : runMsgs s (m :: rest) = runMsgs (processMessage s m).1 rest := rfl
    have hp' : p < (processMessage s m).1.seen.length := by
      rw [pm_seen]
      simpa using hp
    rw [hstep, ih (processMessage s m).1 hp', pm_seen]
    by_cases hmp : m.proc = p
    · have hset : (s.seen.set m.proc m.time).getD p 0 = m.time := by
        subst hmp
        rw [getD_eq_of_lt _ _ (by simpa using hp)]
        simp [hp]
      rw [hset, List.filter_cons_of_pos (by simp [hmp]), List.map_cons, List.getLastD_cons]
    · have hset : (s.seen.set m.proc m.time).getD p 0 = s.seen.getD p 0 := by
        simp [List.getElem?_set_ne hmp]
      rw [hset, List.filter_cons_of_neg (by simp [hmp])]

/-- Witness for C5 (amended): one message from peer 1 at time 5 leaves
`lastSeenTime[1]` equal to the last (here only) time received from it. -/
theorem lastSeen_equals_last_from_peer_witness :
    (runMsgs (initState 0 2) [⟨MessageRequest, 1, 5⟩]).seen.getD 1 0
      = ((([⟨MessageRequest, 1, 5⟩] : List Message).filter (fun m => m.proc = 1)).map
          Message.time).getLastD ((initState 0 2).seen.getD 1 0) :=
  lastSeen_equals_last_from_peer (initState 0 2) [⟨MessageRequest, 1, 5⟩] 1 (by decide)

theorem mem_heapPush {a x : Message} {l : List Message} :
    a ∈ heapPush l x ↔ a = x ∨ a ∈ l := by
  rw [← Multiset.mem_coe, heapPush_ms, Multiset.mem_cons, Multiset.mem_coe]

theorem run_aux {self n : Nat} {s : LamportLockState} {ph : Nat → Bool}
    (h : Run self n s ph) :
    s.proc = self ∧
    (∀ m ∈ s.reqs, m.type = MessageRequest) ∧
    ((s.reqs : Multiset Message).map (fun m => m.proc)).Nodup ∧
    (∀ p, ph p = false → ∀ m ∈ s.reqs, m.proc ≠ p) := by
  induction h with
  | init => simp [initState]
  | @sendReq s ph hrun hph ih =>
    obtain ⟨hproc, htypes, hnodup, haux⟩ := ih
    have hreqs : (sendRequestMsg s).1.reqs
        = heapPush s.reqs ⟨MessageRequest, s.proc, s.time + 1⟩ := rfl
    refine ⟨hproc, ?_, ?_, ?_⟩
    · intro m hm
      rw [hreqs] at hm
      rcases mem_heapPush.1 hm with h1 | h1
      · rw [h1]
      · exact htypes m h1
    · rw [hreqs, heapPush_ms, Multiset.map_cons]
      refine Multiset.Nodup.cons ?_ hnodup
      intro hmem
      obtain ⟨b, hb, hbp⟩ := Multiset.mem_map.1 hmem
      exact haux self hph b (Multiset.mem_coe.1 hb) (by rw [hbp, hproc])
    · intro p hp m hm
      have hps : p ≠ self := by
        intro e
        rw [e, Function.update_same] at hp
        exact Bool.true_eq_false.mp hp
      have hp' : ph p = false := by
        rw [Function.update_noteq hps] at hp
        exact hp
      rw [hreqs] at hm
      rcases mem_heapPush.1 hm with h1 | h1
      · rw [h1]
        dsimp only
        rw [hproc]
        exact fun e => hps e.symm
      · exact haux p hp' m h1
  | @sendRel s ph s' out hrun heq ih =>
    obtain ⟨hproc, htypes, hnodup, haux⟩ := ih
    have hl : haveLock s = true := by
      by_cases hl : haveLock s
      · exact hl
      · rw [sendReleaseMsg, if_neg hl] at heq
        exact absurd heq (by simp)
    have hs' : s' = { s with time := s.time + 1, reqs := (heapPop s.reqs).2 } := by
      rw [sendReleaseMsg, if_pos (by simp [hl])] at heq
      simp only [Option.some.injEq, Prod.mk.injEq] at heq
      exact heq.1.symm
    obtain ⟨hne, hfr⟩ := haveLock_front s hl
    obtain ⟨hfst, hms⟩ := heapPop_spec s.reqs hne
    have hmem_sub : ∀ m ∈ (heapPop s.reqs).2, m ∈ s.reqs := by
      intro m hm
      rw [← Multiset.mem_coe, ← hms]
      exact Multiset.mem_cons_of_mem (Multiset.mem_coe.2 hm)
    refine ⟨by rw [hs']; exact hproc, ?_, ?_, ?_⟩
    · intro m hm
      rw [hs'] at hm
      exact htypes m (hmem_sub m hm)
    · rw [hs']
      refine Multiset.nodup_of_le (Multiset.map_le_map ?_) hnodup
      rw [← hms]
      exact Multiset.le_cons_self _ _
    · intro p hp m hm
      rw [hs'] at hm
      by_cases hps : p = self
      · subst hps
        rw [← hms, Multiset.map_cons] at hnodup
        have hnm := Multiset.Nodup.not_mem hnodup
        intro e
        refine hnm (Multiset.mem_map.2 ⟨m, Multiset.mem_coe.2 hm, ?_⟩)
        rw [e, hfst, hfr, hproc]
      · have hp' : ph p = false := by
          rw [Function.update_noteq hps] at hp
          exact hp
        exact haux p hp' m (hmem_sub m hm)
  | @recvReq s ph p t hrun hpne hphp ih =>
    obtain ⟨hproc, htypes, hnodup, haux⟩ := ih
    have hreqs : (processMessage s ⟨MessageRequest, p, t⟩).1.reqs
        = heapPush s.reqs ⟨MessageRequest, p, t⟩ := pm_reqs_request s _ rfl
    refine ⟨by rw [pm_proc]; exact hproc, ?_, ?_, ?_⟩
    · intro m hm
      rw [hreqs] at hm
      rcases mem_heapPush.1 hm with h1 | h1
      · rw [h1]
      · exact htypes m h1
    · rw [hreqs, heapPush_ms, Multiset.map_cons]
      refine Multiset.Nodup.cons ?_ hnodup
      intro hmem
      obtain ⟨b, hb, hbp⟩ := Multiset.mem_map.1 hmem
      exact haux p hphp b (Multiset.mem_coe.1 hb) hbp
    · intro q hq m hm
      have hqp : q ≠ p := by
        intro e
        rw [e, Function.update_same] at hq
        exact Bool.true_eq_false.mp hq
      have hq' : ph q = false := by
        rw [Function.update_noteq hqp] at hq
        exact hq
      rw [hreqs] at hm
      rcases mem_heapPush.1 hm with h1 | h1
      · rw [h1]
        exact fun e => hqp e.symm
      · exact haux q hq' m h1
  | @recvRel s ph p t hrun hpne hphp ih =>
    obtain ⟨hproc, htypes, hnodup, haux⟩ := ih
    have hreqs : ((processMessage s ⟨MessageRelease, p, t⟩).1.reqs : Multiset Message)
        = Multiset.filter (fun m => m.proc ≠ p) (s.reqs : Multiset Message) := by
      rw [pm_reqs_release s _ rfl, processRelease_ms]
    have hmem_sub : ∀ m ∈ (processMessage s ⟨MessageRelease, p, t⟩).1.reqs,
        m ∈ s.reqs ∧ m.proc ≠ p := by
      intro m hm
      have := Multiset.mem_coe.2 hm
      rw [hreqs] at this
      exact ⟨Multiset.mem_coe.1 (Multiset.mem_of_mem_filter this),
             @Multiset.of_mem_filter Message (fun m => m.proc ≠ p) _ _ _ this⟩
    refine ⟨by rw [pm_proc]; exact hproc, ?_, ?_, ?_⟩
    · intro m hm
      exact htypes m (hmem_sub m hm).1
    · refine Multiset.nodup_of_le (Multiset.map_le_map ?_) hnodup
      rw [hreqs]
      exact Multiset.filter_le _ _
    · intro q hq m hm
      by_cases hqp : q = p
      · subst hqp
        exact (hmem_sub m hm).2
      · have hq' : ph q = false := by
          rw [Function.update_noteq hqp] at hq
          exact hq
        exact haux q hq' m (hmem_sub m hm).1
  | @recvAck s ph p t hrun hpne ih =>
    obtain ⟨hproc, htypes, hnodup, haux⟩ := ih
    have hreqs : (processMessage s ⟨MessageAck, p, t⟩).1.reqs = s.reqs :=
      pm_reqs_ack s _ rfl
    exact ⟨by rw [pm_proc]; exact hproc,
           by rw [hreqs]; exact htypes,
           by rw [hreqs]; exact hnodup,
           fun q hq => by rw [hreqs]; exact haux q hq⟩

/-- C9: in every reachable execution under the protocol discipline (no peer
issues a second Request before releasing its first, each Release is
preceded by the matching Request, the peer's own Release only happens while
holding the lock), `pendingRequests` contains only Request messages, with
at most one entry per originating peer; every operation preserves this. -/
theorem run_pendingRequests_invariant {self n : Nat} {s : LamportLockState}
    {ph : Nat → Bool} (h : Run self n s ph) :
    (∀ m ∈ s.reqs, m.type = MessageRequest) ∧
    ((s.reqs : Multiset Message).map (fun m => m.proc)).Nodup :=
  ⟨(run_aux h).2.1, (run_aux h).2.2.1⟩

/-- Witness for C9: the invariant holds of the freshly initialized state
reached by the empty execution. -/
theorem run_pendingRequests_invariant_witness :
    (∀ m ∈ (initState 0 2).reqs, m.type = MessageRequest) ∧
    (((initState 0 2).reqs : Multiset Message).map (fun m => m.proc)).Nodup :=
  run_pendingRequests_invariant (@Run.init 0 2)

end Lamport
